import Mathlib

/-!
Verification of the storage CLI core: a shallow embedding of the
chunked-transfer engine (`src/storage/internal/__init__.py`), the
chunk-store adapter (`storages/mongodb.py`), the object-store adapter
(`storages/minio.py`) and the shared record model (`storages/generic.py`),
with theorems settling the behavioural claims made about them.

Filenames, collection names and hashes are embedded as `List Char` /
`String`; byte payloads as `List Nat`; machine integers as `Nat`/`Int`;
CPython float division (used by the engine via `int(fsize / chunk_size)`
and by `SizeScale.scale`) is modelled exactly, as round-to-nearest-even
on 53-bit significands, respectively as exact rational arithmetic where
every operation involved is exact in double precision.
-/

/- ================= SizeScale (generic.py 8-68) ================= -/

def SizeScale_kb : ℚ := 1024
def SizeScale_mb : ℚ := SizeScale_kb * 1024
def SizeScale_gb : ℚ := SizeScale_mb * 1024
def SizeScale_tb : ℚ := SizeScale_gb * 1024
def SizeScale_pb : ℚ := SizeScale_tb * 1024

/-- `SizeScale.scale` (generic.py 44-68), translated branch for branch.
`scale_factor = SizeScale.kb`; the initial values `_size = size`,
`size_type = " b"` survive only when no branch fires.  All divisions are
by powers of two and all inputs of interest are far below 2^53 in
magnitude, so CPython float arithmetic is exact here and the rational
embedding is faithful. -/
def SizeScale_scale (size : ℚ) : ℚ × String :=
  let scale_factor : ℚ := SizeScale_kb
  if size / SizeScale_kb ≤ scale_factor then (size / SizeScale_kb, "kb")
  else if size / SizeScale_mb ≤ scale_factor then (size / SizeScale_mb, "mb")
  else if size / SizeScale_gb ≤ scale_factor then (size / SizeScale_gb, "gb")
  else if size / SizeScale_tb ≤ scale_factor then (size / SizeScale_tb, "tb")
  else if scale_factor ≤ size / SizeScale_pb then (size / SizeScale_pb, "pb")
  else (size, " b")

/- ====== Chunk-store collection model (mongodb.py 14-16, 98-108) ====== -/

def chunksChars : List Char := ['c', 'h', 'u', 'n', 'k', 's']
def filesChars : List Char := ['f', 'i', 'l', 'e', 's']

/-- The raw name of the chunk collection of bucket `name`:
`"{}.{}".format(name, GridFSTable.chunks.value)` with the braces being
Python format slots. -/
def chunksColl (name : List Char) : List Char := name ++ '.' :: chunksChars

/-- The raw name of the files/metadata collection of bucket `name`. -/
def filesColl (name : List Char) : List Char := name ++ '.' :: filesChars

/-- `MongoStorage.bucket_exists` (mongodb.py 98-99): membership of the
chunk collection name in `list_collection_names()`. -/
def mongo_bucket_exists (colls : List (List Char)) (name : List Char) : Bool :=
  decide (chunksColl name ∈ colls)

/-- `MongoStorage.drop_bucket` (mongodb.py 101-108): drops the chunk
collection and the files collection; `drop_collection` is a no-op on an
absent name. -/
def mongo_drop_bucket (colls : List (List Char)) (name : List Char) : List (List Char) :=
  (colls.filter (fun c => c ≠ chunksColl name)).filter (fun c => c ≠ filesColl name)

inductive CmdError where
  | notFound
  | valueError
  deriving DecidableEq, Repr

def lsChars : List Char := ['l', 's']
def newChars : List Char := ['n', 'e', 'w']
def rmChars : List Char := ['r', 'm']

/-- `bucket_command` (internal/__init__.py 76-105) on the chunk-store
backend.  Result: the collection state afterwards and the error raised,
if any.  The `ls` branch only prints; `new` and an unknown or missing
subcommand raise `ValueError`; the delete branch checks
`bucket_exists` and raises the not-found `ValueError` without touching
the store, otherwise calls `drop_bucket`. -/
def bucket_command_run (colls : List (List Char)) (args : List (List Char)) :
    List (List Char) × Option CmdError :=
  match args with
  | [] => (colls, some CmdError.valueError)
  | cmd :: rest =>
    if cmd = lsChars then (colls, none)
    else if cmd = newChars then (colls, some CmdError.valueError)
    else if cmd = rmChars then
      match rest with
      | [] => (colls, some CmdError.valueError)
      | name :: _ =>
        if mongo_bucket_exists colls name then (mongo_drop_bucket colls name, none)
        else (colls, some CmdError.notFound)
    else (colls, some CmdError.valueError)

/- ========= File records and the chunk-store file operations ========= -/

/-- The fields of a stored file record that the upload housekeeping
inspects: the backend-assigned id (`_id` / `fid`) and the filename. -/
structure FileRec where
  fid : Nat
  filename : List Char
  deriving DecidableEq, Repr

/-- Boolean list-prefix test (used to build the substring test below). -/
def listStartsWith : List Char → List Char → Bool
  | [], _ => true
  | _ :: _, [] => false
  | a :: as, b :: bs => a == b && listStartsWith as bs

/-- Boolean contiguous-substring test: `p` occurs inside `s`. -/
def listContainsSub (p : List Char) : List Char → Bool
  | [] => listStartsWith p []
  | c :: cs => listStartsWith p (c :: cs) || listContainsSub p cs

/-- `MongoStorage.list` (mongodb.py 110-119): no filter lists all files;
a filter is passed to GridFS as a `$regex` query on `filename`, i.e. an
unanchored search.  For patterns free of regex metacharacters — every
filename this development quantifies over — that is exactly contiguous
substring containment, which is how the external query is modelled. -/
def mongo_list (bucket : List FileRec) : Option (List Char) → List FileRec
  | none => bucket
  | some pat => bucket.filter (fun f => listContainsSub pat f.filename)

/-- `MongoStorage.delete` (mongodb.py 126-138) given an id: `fs.delete`
removes the record carrying that id. -/
def mongo_delete (bucket : List FileRec) (fid : Nat) : List FileRec :=
  bucket.filter (fun g => g.fid ≠ fid)

/- ============ Upload verification (internal/__init__.py 219-228) ============ -/

/-- Outcome of the tail of `put_cmd`: the bucket contents afterwards,
whether the transfer was reported as succeeded, and the local source
file (returned to show `put_cmd` never modifies it). -/
structure PutResult where
  bucket : List FileRec
  transferred : Bool
  source : List Nat
  deriving DecidableEq, Repr

/-- The verification and housekeeping step of `put_cmd`
(internal/__init__.py 219-228), entered after `stream.close()`.
`serverHash` is `stream.hash_value` (`None` is modelled as `none`), and
Python `!=` between `None` and a string is true.  On mismatch the
just-written object `stream._id` is deleted and failure is reported; on
match every other listed file sharing the filename is deleted. -/
def put_verify (bucket : List FileRec) (sid : Nat) (fname : List Char)
    (serverHash : Option String) (localHash : String) (src : List Nat) : PutResult :=
  if serverHash ≠ some localHash then
    { bucket := mongo_delete bucket sid, transferred := false, source := src }
  else
    { bucket := (mongo_list bucket (some fname)).foldl
        (fun b f => if f.fid ≠ sid then mongo_delete b f.fid else b) bucket,
      transferred := true, source := src }

/- ================= The delete command (internal/__init__.py 231-250) ================= -/

/-- The chunk-store state seen by `del_cmd`: the collection names plus
the per-bucket file records. -/
structure MongoDb where
  colls : List (List Char)
  bucketFiles : List Char → List FileRec

/-- `del_cmd` (internal/__init__.py 231-250).  `ctx.args.pop(0)` on an
empty argument list raises `IndexError`, which is caught and rewritten
to `ctx.args = [BucketCommands.delete_cmd, ctx.bucket_name]` followed by
`bucket_command(ctx)` — the bucket-delete path.  With a filename, the
listed matches are deleted one by one, or `ValueError` is raised when
none match. -/
def del_cmd_run (db : MongoDb) (bucket : List Char) (args : List (List Char)) :
    MongoDb × Option CmdError :=
  match args with
  | [] =>
    let r := bucket_command_run db.colls [rmChars, bucket]
    ({ db with colls := r.1 }, r.2)
  | filename :: _ =>
    let fs := mongo_list (db.bucketFiles bucket) (some filename)
    if fs = [] then (db, some CmdError.notFound)
    else
      ({ db with bucketFiles := fun b =>
          if b = bucket then fs.foldl (fun acc f => mongo_delete acc f.fid) (db.bucketFiles bucket)
          else db.bucketFiles b }, none)

/- ================= Hash selection (internal/__init__.py 178, 288-292) ================= -/

/-- The two concrete backends, keyed off the factory table
(`storages/__init__.py`). -/
inductive Backend where
  | mongo
  | minio
  deriving DecidableEq, Repr

inductive HashAlgo where
  | md5
  | sha256
  deriving DecidableEq, Repr

/-- The rolling content hash of the transfer engine: the algorithm it
was created with and the bytes folded in so far. -/
structure RollingHash where
  algo : HashAlgo
  fed : List Nat
  deriving DecidableEq, Repr

def hashInit (a : HashAlgo) : RollingHash := { algo := a, fed := [] }

/-- `hash.update(chunk)` folds a chunk into the running hash. -/
def hashUpdate (h : RollingHash) (chunk : List Nat) : RollingHash :=
  { h with fed := h.fed ++ chunk }

/-- internal/__init__.py 178: `hash = hashlib.md5()` — `put_cmd` creates
its rolling hash before and independently of the backend in use. -/
def put_upload_hash_algo (_b : Backend) : HashAlgo := HashAlgo.md5

/-- The `hash_type` tag each backend stamps on its read streams:
mongodb.py 117 passes `"md5"`, minio.py 135 passes `"sha256"`. -/
def backend_stream_hash_type : Backend → String
  | Backend.mongo => "md5"
  | Backend.minio => "sha256"

/-- `get_cmd` (internal/__init__.py 288-292): the `supported_hashes`
table lookup keyed by the hash-type tag of the downloaded record. -/
def get_download_hash_algo (hash_type : String) : Option HashAlgo :=
  if hash_type = "md5" then some HashAlgo.md5
  else if hash_type = "sha256" then some HashAlgo.sha256
  else none

/-- minio.py 210: `MinIOStreamInProxy.__init__` installs
`hash_value=lambda: None`, and `FileIn.hash_value` (generic.py 141-143)
returns that closure value — the object-store write stream never
surfaces a server hash. -/
def minio_streamin_hash_value : Option String := none

/- ================= new_file arity (C9 sources) ================= -/

/-- Required positional parameters (after `self`, no defaults) of each
backend `new_file`: mongodb.py 121 and minio.py 378 both declare
`(self, bucket, filename, size)`. -/
def new_file_required_params : Backend → Nat
  | Backend.mongo => 3
  | Backend.minio => 3

/-- internal/__init__.py 188: `ctx.db.new_file(ctx.bucket_name, filename)`
passes two positional arguments. -/
def put_cmd_new_file_args : Nat := 2

inductive PutEvent where
  | sourceOpened
  | newFileCall (b : Backend) (nargs : Nat)
  | streamObtained
  deriving DecidableEq, Repr

inductive PyErr where
  | valueError
  | typeErrorArity
  deriving DecidableEq, Repr

/-- The head of `put_cmd` (internal/__init__.py 157-188) up to the
backend `new_file` call: a missing source raises `ValueError` before any
backend interaction; otherwise the source is opened and
`ctx.db.new_file` is invoked with two positional arguments — CPython
raises `TypeError` at the call when the callee demands a different
number of required positionals, before the callee body (and hence any
backend write) runs. -/
def put_cmd_head (b : Backend) (sourceExists : Bool) : List PutEvent × Option PyErr :=
  if sourceExists = false then ([], some PyErr.valueError)
  else if put_cmd_new_file_args = new_file_required_params b then
    ([PutEvent.sourceOpened, PutEvent.newFileCall b put_cmd_new_file_args,
      PutEvent.streamObtained], none)
  else
    ([PutEvent.sourceOpened, PutEvent.newFileCall b put_cmd_new_file_args],
      some PyErr.typeErrorArity)

/- ========== CPython float division and the chunk arithmetic ========== -/

/-- Fueled structural base-2 logarithm: `log2fuel f n` is the floor of
log2 of `n` whenever the fuel `f` is at least the bit length of `n`;
`natLog2` passes `n` itself as fuel, which always suffices. -/
def log2fuel : Nat → Nat → Nat
  | 0, _ => 0
  | f + 1, n => if 2 ≤ n then log2fuel f (n / 2) + 1 else 0

def natLog2 (n : Nat) : Nat := log2fuel n n

/-- Fueled search for the least `m` (starting at the given `m`) with
`b ≤ a * 2 ^ m`. -/
def findExp : Nat → Nat → Nat → Nat → Nat
  | 0, _, _, m => m
  | f + 1, a, b, m => if b ≤ a * 2 ^ m then m else findExp f a b (m + 1)

/-- The IEEE-754 double nearest to the rational `a / b` (round to
nearest, ties to even), as a pair significand/binary exponent with
value `s * 2 ^ e`.  This is exactly what CPython `a / b` computes on
nonnegative ints whose quotient stays in the exponent range. -/
def floatDivParts (a b : Nat) : Nat × Int :=
  if a = 0 ∨ b = 0 then (0, 0)
  else
    let k : Int := if b ≤ a then (natLog2 (a / b) : Int) else -(findExp b a b 1 : Int)
    let e : Int := k - 52
    let num : Nat := if 0 ≤ e then a else a * 2 ^ (-e).toNat
    let den : Nat := if 0 ≤ e then b * 2 ^ e.toNat else b
    let s0 : Nat := num / den
    let r : Nat := num % den
    let s : Nat :=
      if 2 * r < den then s0
      else if den < 2 * r then s0 + 1
      else if s0 % 2 = 0 then s0 else s0 + 1
    if s = 2 ^ 53 then (2 ^ 52, e + 1) else (s, e)

/-- CPython `int(a / b)` on nonnegative ints: true float division
followed by truncation toward zero. -/
def pyIntDiv (a b : Nat) : Nat :=
  let p := floatDivParts a b
  if 0 ≤ p.2 then p.1 * 2 ^ p.2.toNat else p.1 / 2 ^ (-p.2).toNat

/-- internal/__init__.py 191: `int(fsize / chunk_size) * chunk_size`. -/
def total_chunked_size (fsize chunk : Nat) : Nat := pyIntDiv fsize chunk * chunk

/-- internal/__init__.py 192: `fsize - total_chunked_size` (a Python int,
possibly negative). -/
def read_left_size (fsize chunk : Nat) : ℤ := (fsize : ℤ) - total_chunked_size fsize chunk

/-- One `f.read(n)` on a regular file of size `fsize` with the cursor at
`tell`: the number of bytes obtained. -/
def fileRead (fsize tell n : Nat) : Nat := min n (fsize - tell)

/-- The chunk-copy loop of `put_cmd` (internal/__init__.py 196-204;
`get_cmd` 304-311 is identical): `while f.tell() < total_chunked_size`
read one chunk and write it.  Fueled: `none` means the loop has not
exited within the fuel; the result is the list of write-call byte counts
together with the final cursor position. -/
def putLoop : Nat → Nat → Nat → Nat → Nat → Option (List Nat × Nat)
  | 0, _, _, _, _ => none
  | fuel + 1, tell, fsize, chunk, tcs =>
    if tell < tcs then
      let n := fileRead fsize tell chunk
      (putLoop fuel (tell + n) fsize chunk tcs).map (fun p => (n :: p.1, p.2))
    else some ([], tell)

/-- The byte counts of all backend write calls `put_cmd` issues for a
source of `fsize` bytes and stream chunk size `chunk`: the copy loop
followed, when `read_left_size > 0`, by one final
`f.read(read_left_size)` / write (internal/__init__.py 206-214).
`none` means the copy loop never terminates. -/
def putWriteSizes (fsize chunk : Nat) : Option (List Nat) :=
  match putLoop (fsize + 1) 0 fsize chunk (total_chunked_size fsize chunk) with
  | none => none
  | some (l, tell) =>
    some (l ++ if 0 < read_left_size fsize chunk then
      [fileRead fsize tell (read_left_size fsize chunk).toNat] else [])

/- ========== The object-store write stream (minio.py 196-321) ========== -/

/-- Backend requests a `MinIOStreamInProxy` can issue. -/
inductive MinioOp where
  | newMultipart
  | putPart (partNumber : Nat) (size : Nat)
  | putSimple (size : Nat)
  | completeMultipart (parts : List (Nat × Nat))
  | removeIncomplete
  deriving DecidableEq, Repr

/-- State of a `MinIOStreamInProxy`: `minStream` is the `BytesIO` buffer
of the simple path (`none` on the multipart path), `uploadedParts` the
recorded parts as pairs of part number and byte count, and `ops` the
trace of backend requests issued so far. -/
structure MinioIn where
  minStream : Option (List Nat)
  partNumber : Nat
  hasUploadId : Bool
  uploadedParts : List (Nat × Nat)
  ops : List MinioOp
  deriving DecidableEq, Repr

/-- `MinIOStreamInProxy.__init__` (minio.py 203-234): strictly
`size > helpers.MIN_PART_SIZE` opens a multipart session with
`part_number = 1`; otherwise a fresh `BytesIO` buffer with
`part_number = 0` and an empty upload id. -/
def minioInInit (minPartSize size : Nat) : MinioIn :=
  if minPartSize < size then
    { minStream := none, partNumber := 1, hasUploadId := true,
      uploadedParts := [], ops := [MinioOp.newMultipart] }
  else
    { minStream := some [], partNumber := 0, hasUploadId := false,
      uploadedParts := [], ops := [] }

/-- `_do_put_object` (minio.py 236-265): one PUT, with the uploadId and
partNumber query exactly when `part_number > 0 and uploadid`. -/
def minioDoPut (st : MinioIn) (size : Nat) : MinioOp :=
  if st.partNumber ≠ 0 ∧ st.hasUploadId = true then MinioOp.putPart st.partNumber size
  else MinioOp.putSimple size

/-- `MinIOStreamInProxy.write` (minio.py 283-299): the simple path only
buffers; the multipart path issues one PUT, records the part under the
current part number and increments it. -/
def minioWrite (st : MinioIn) (b : List Nat) : MinioIn :=
  match st.minStream with
  | some buf => { st with minStream := some (buf ++ b) }
  | none =>
    { st with
      ops := st.ops ++ [minioDoPut st b.length],
      uploadedParts := st.uploadedParts ++ [(st.partNumber, b.length)],
      partNumber := st.partNumber + 1 }

/-- `MinIOStreamInProxy.close` (minio.py 267-281): the simple path PUTs
the whole buffer and returns; the multipart path attempts
`_complete_multipart_upload` over every recorded part and, should that
fail (`completeOk = false`), `_remove_incomplete_upload` and re-raise —
the second component reports whether close raised. -/
def minioClose (st : MinioIn) (completeOk : Bool) : MinioIn × Bool :=
  match st.minStream with
  | some buf => ({ st with ops := st.ops ++ [minioDoPut st buf.length] }, false)
  | none =>
    if completeOk then
      ({ st with ops := st.ops ++ [MinioOp.completeMultipart st.uploadedParts],
                 hasUploadId := false, partNumber := 1, uploadedParts := [] }, false)
    else
      ({ st with ops := st.ops ++ [MinioOp.removeIncomplete] }, true)

/-- A whole write-stream run: init, the engine-supplied chunks in order,
then close. -/
def minioRun (minPartSize size : Nat) (ws : List (List Nat)) (completeOk : Bool) :
    MinioIn × Bool :=
  minioClose (ws.foldl minioWrite (minioInInit minPartSize size)) completeOk

/-- The PUT trace of the multipart path: one part per engine chunk,
numbered consecutively from `p`. -/
def partPuts (p : Nat) : List (List Nat) → List MinioOp
  | [] => []
  | b :: ws => MinioOp.putPart p b.length :: partPuts (p + 1) ws

/-- The recorded parts of the multipart path, numbered from `p`. -/
def partRecords (p : Nat) : List (List Nat) → List (Nat × Nat)
  | [] => []
  | b :: ws => (p, b.length) :: partRecords (p + 1) ws

/- ========== Chunk-store bucket enumeration (mongodb.py 51-96) ========== -/

/-- GridFS collection suffixes (mongodb.py 14-16). -/
inductive GridFSTable where
  | files
  | chunks
  deriving DecidableEq, Repr

/-- Split a raw collection name at its last dot:
`some (before, after)`, or `none` when it has no dot. -/
def splitLastDot : List Char → Option (List Char × List Char)
  | [] => none
  | c :: cs =>
    match splitLastDot cs with
    | some (pre, suf) => some (c :: pre, suf)
    | none => if c = '.' then some ([], cs) else none

/-- mongodb.py 57: `raw_name[: raw_name.rfind(".")]` — everything before
the last dot, or (rfind returning -1) everything but the last char. -/
def rawBucketName (raw : List Char) : List Char :=
  match splitLastDot raw with
  | some (pre, _) => pre
  | none => raw.dropLast

/-- mongodb.py 61: `GridFSTable(raw_name.rpartition(".")[2])`, with the
`ValueError` of an unknown suffix caught to `None`. -/
def rawRecordType (raw : List Char) : Option GridFSTable :=
  let suf := match splitLastDot raw with
    | some (_, suf) => suf
    | none => raw
  if suf = chunksChars then some GridFSTable.chunks
  else if suf = filesChars then some GridFSTable.files
  else none

/-- What `bucket_list` reads off one collection: its raw name, the
`collStats` size and document count, and the `uploadDate` of its first
document when it has one. -/
structure MongoCollection where
  raw : List Char
  size : Nat
  count : Nat
  firstUploadDate : Option (List Char)
  deriving DecidableEq, Repr

def unknownDateChars : List Char :=
  ['?', '?', '?', '?', '-', '?', '?', '-', '?', '?', ' ',
   '?', '?', ':', '?', '?', ':', '?', '?']

/-- The `BucketItemRecord` being accumulated (generic.py 71-79 defaults:
size 0, files 0, the unknown-date sentinel, empty raw list). -/
structure BucketAccum where
  name : List Char
  size : Nat
  files : Nat
  date : List Char
  raw : List (List Char)
  deriving DecidableEq, Repr

def freshAccum (name : List Char) : BucketAccum :=
  { name := name, size := 0, files := 0, date := unknownDateChars, raw := [] }

/-- The generator state of `MongoStorage.bucket_list`: `done_list` maps
a bucket name to nothing (never seen), `some none` (already yielded —
the entry was overwritten with Python `None`), or
`some (some (tables_done, record))`; `yields` is the output so far;
`crashed` records the `TypeError` of subscripting a `None` entry, which
aborts the generator. -/
structure BLState where
  done : List Char → Option (Option (Nat × BucketAccum))
  yields : List BucketAccum
  crashed : Bool

/-- mongodb.py 76-78: the chunk-collection contribution,
`bucket.size += col_stats["size"]`. -/
def blApplyChunks (c : MongoCollection) (rec0 : BucketAccum) : BucketAccum :=
  { rec0 with size := rec0.size + c.size }

/-- mongodb.py 79-89: the files-collection contribution: the document
count, and when it is positive the upload date of the first document
(an `IndexError` — no first document — is swallowed, keeping the
previous date). -/
def blApplyFiles (c : MongoCollection) (rec0 : BucketAccum) : BucketAccum :=
  { rec0 with
    files := c.count,
    date := if 0 < c.count then
        match c.firstUploadDate with
        | some d => d
        | none => rec0.date
      else rec0.date }

/-- One iteration of the `bucket_list` loop body (mongodb.py 55-96) on
collection `c`. -/
def blStep (st : BLState) (c : MongoCollection) : BLState :=
  if st.crashed then st
  else
    let name := rawBucketName c.raw
    match st.done name with
    | some none => { st with crashed := true }
    | entry =>
      let p : Nat × BucketAccum :=
        match entry with
        | some (some q) => q
        | _ => (0, freshAccum name)
      let td := p.1
      let rec0 := p.2
      let (td', rec') : Nat × BucketAccum :=
        match rawRecordType c.raw with
        | some GridFSTable.chunks => (td + 1, blApplyChunks c rec0)
        | some GridFSTable.files => (td + 1, blApplyFiles c rec0)
        | none => (td, rec0)
      let rec2 := { rec' with raw := rec'.raw ++ [c.raw] }
      if td' = 2 then
        { st with done := fun m => if m = name then some none else st.done m,
                  yields := st.yields ++ [rec2] }
      else
        { st with done := fun m => if m = name then some (some (td', rec2)) else st.done m }

/-- `bucket_list` run over an enumeration order of the collections. -/
def blRun (cols : List MongoCollection) : BLState :=
  cols.foldl blStep { done := fun _ => none, yields := [], crashed := false }

/-- The chunk collection of `name` has been observed among `P`. -/
def cSeen (name : List Char) (P : List MongoCollection) : Prop :=
  chunksColl name ∈ P.map (fun c => c.raw)

/-- The files collection of `name` has been observed among `P`. -/
def fSeen (name : List Char) (P : List MongoCollection) : Prop :=
  filesColl name ∈ P.map (fun c => c.raw)

/-- The loop invariant of `bucket_list` relative to the already-processed
collections `P`: the generator has not crashed, and `done_list` / the
yield list classify every bucket name by which of its two collections
have been observed. -/
def BLInv (P : List MongoCollection) (st : BLState) : Prop :=
  st.crashed = false
  ∧ (∀ name, st.done name = none ↔ ¬ cSeen name P ∧ ¬ fSeen name P)
  ∧ (∀ name, st.done name = some none ↔ cSeen name P ∧ fSeen name P)
  ∧ (∀ name td rec, st.done name = some (some (td, rec)) → td = 1 ∧ rec.name = name)
  ∧ (∀ name, (∃ rec ∈ st.yields, rec.name = name) ↔ cSeen name P ∧ fSeen name P)

/- ============================ Theorems ============================ -/

theorem listStartsWith_refl (p : List Char) : listStartsWith p p = true := by
  induction p with
  | nil => rfl
  | cons c cs ih => simp [listStartsWith, ih]

theorem listContainsSub_refl (p : List Char) : listContainsSub p p = true := by
  cases p with
  | nil => rfl
  | cons c cs => simp [listContainsSub, listStartsWith_refl]

/-- C6: the code disagrees with the claim.  `SizeScale.scale` takes its
first branch whenever `size / kb ≤ kb`, so 999 is rendered as
999/1024 with unit "kb" (not 999 bytes) and 1048576 as 1024 "kb" (not
1 "mb"); only the 1024 example matches the claim.  This theorem
evaluates the embedded code at those inputs. -/
theorem SizeScale_scale_eval :
    SizeScale_scale 999 = (999 / 1024, "kb")
    ∧ SizeScale_scale 1048576 = (1024, "kb")
    ∧ SizeScale_scale 1024 = (1, "kb") := by
  refine ⟨?_, ?_, ?_⟩ <;>
    norm_num [SizeScale_scale, SizeScale_kb, SizeScale_mb, SizeScale_gb,
      SizeScale_tb, SizeScale_pb]

/-- Negative and zero inputs also land in the first branch: the scaler
is total and never raises. -/
theorem SizeScale_scale_nonpos (q : ℚ) (h : q ≤ 0) :
    SizeScale_scale q = (q / 1024, "kb") := by
  have hq : q / (1024 : ℚ) ≤ 1024 := by
    have h0 : q / (1024 : ℚ) ≤ 0 := div_nonpos_of_nonpos_of_nonneg h (by norm_num)
    linarith
  simp [SizeScale_scale, SizeScale_kb, hq]

/-- C7: `bucket_command` with the delete subcommand: a missing bucket
raises the not-found error and leaves the store untouched; an existing
bucket has both of its collections dropped as a unit, nothing else is
removed, and `bucket_exists` is false afterwards. -/
theorem bucket_rm_spec (colls : List (List Char)) (name : List Char) :
    (mongo_bucket_exists colls name = false →
      bucket_command_run colls [rmChars, name] = (colls, some CmdError.notFound))
    ∧ (mongo_bucket_exists colls name = true →
      bucket_command_run colls [rmChars, name] = (mongo_drop_bucket colls name, none)
      ∧ mongo_bucket_exists (mongo_drop_bucket colls name) name = false
      ∧ chunksColl name ∉ mongo_drop_bucket colls name
      ∧ filesColl name ∉ mongo_drop_bucket colls name
      ∧ ∀ c ∈ colls, c ≠ chunksColl name → c ≠ filesColl name →
          c ∈ mongo_drop_bucket colls name) := by
  have h1 : rmChars ≠ lsChars := by decide
  have h2 : rmChars ≠ newChars := by decide
  constructor
  · intro h
    simp [bucket_command_run, h1, h2, h]
  · intro h
    refine ⟨by simp [bucket_command_run, h1, h2, h], ?_, ?_, ?_, ?_⟩
    · simp [mongo_bucket_exists, mongo_drop_bucket, List.mem_filter]
    · simp [mongo_drop_bucket, List.mem_filter]
    · simp [mongo_drop_bucket, List.mem_filter]
    · intro c hc hc1 hc2
      simp [mongo_drop_bucket, List.mem_filter, hc, hc1, hc2]

/-- Witness for C7 at a concrete store with one bucket `a`. -/
theorem bucket_rm_spec_witness :
    bucket_command_run [chunksColl ['a'], filesColl ['a']] [rmChars, ['b']]
      = ([chunksColl ['a'], filesColl ['a']], some CmdError.notFound)
    ∧ mongo_bucket_exists
        (mongo_drop_bucket [chunksColl ['a'], filesColl ['a']] ['a']) ['a'] = false :=
  ⟨(bucket_rm_spec [chunksColl ['a'], filesColl ['a']] ['b']).1 (by decide),
   ((bucket_rm_spec [chunksColl ['a'], filesColl ['a']] ['a']).2 (by decide)).2.1⟩

/-- C10: `del_cmd` invoked with no filename argument falls back to the
bucket-delete path: the whole bucket is dropped (both collections
removed), no error is raised, and the file map is untouched. -/
theorem del_cmd_fallback_spec (db : MongoDb) (bucket : List Char)
    (hex : mongo_bucket_exists db.colls bucket = true) :
    del_cmd_run db bucket [] =
      ({ db with colls := mongo_drop_bucket db.colls bucket }, none)
    ∧ chunksColl bucket ∉ (del_cmd_run db bucket []).1.colls
    ∧ filesColl bucket ∉ (del_cmd_run db bucket []).1.colls := by
  have h1 : rmChars ≠ lsChars := by decide
  have h2 : rmChars ≠ newChars := by decide
  have hrun : del_cmd_run db bucket [] =
      ({ db with colls := mongo_drop_bucket db.colls bucket }, none) := by
    simp [del_cmd_run, bucket_command_run, h1, h2, hex]
  refine ⟨hrun, ?_, ?_⟩ <;> rw [hrun] <;>
    simp [mongo_drop_bucket, List.mem_filter]

/-- Witness for C10 on a concrete one-bucket store. -/
theorem del_cmd_fallback_witness :
    del_cmd_run (MongoDb.mk [chunksColl ['a'], filesColl ['a']] (fun _ => [])) ['a'] []
      = ({ MongoDb.mk [chunksColl ['a'], filesColl ['a']] (fun _ => []) with
            colls := mongo_drop_bucket [chunksColl ['a'], filesColl ['a']] ['a'] }, none) :=
  (del_cmd_fallback_spec (MongoDb.mk [chunksColl ['a'], filesColl ['a']] (fun _ => []))
    ['a'] (by decide)).1

/-- C9: for both backends, the refactored `put_cmd` calls `new_file`
with two positional arguments while the implementations require three,
so the upload aborts with the arity `TypeError` right at the call —
after the source was opened, before any backend write. -/
theorem put_new_file_arity_error (b : Backend) :
    put_cmd_head b true =
      ([PutEvent.sourceOpened, PutEvent.newFileCall b 2], some PyErr.typeErrorArity)
    ∧ put_cmd_new_file_args ≠ new_file_required_params b := by
  cases b <;> exact ⟨rfl, by decide⟩

/-- C8: the object-store write stream reports no server hash
(`hash_value` is `None`), so the `put_cmd` verification comparison can
never succeed: for every locally computed digest the mismatch branch is
taken — the freshly written object is deleted and failure reported. -/
theorem minio_put_verify_always_fails (bucket : List FileRec) (sid : Nat)
    (fname : List Char) (localHash : String) (src : List Nat) :
    put_verify bucket sid fname minio_streamin_hash_value localHash src =
      { bucket := mongo_delete bucket sid, transferred := false, source := src } := by
  simp [put_verify, minio_streamin_hash_value]

/-- C3, counterexample: on the object-store backend the upload hash is
MD5, not the claimed SHA-256 — `put_cmd` line 178 creates `hashlib.md5()`
unconditionally, while SHA-256 is only the tag minio stamps on read
streams. -/
theorem upload_hash_md5_on_minio :
    put_upload_hash_algo Backend.minio = HashAlgo.md5
    ∧ backend_stream_hash_type Backend.minio = "sha256"
    ∧ put_upload_hash_algo Backend.minio ≠ HashAlgo.sha256 := by
  refine ⟨rfl, rfl, by decide⟩

theorem foldl_hashUpdate_algo (l : List (List Nat)) (h : RollingHash) :
    (l.foldl hashUpdate h).algo = h.algo := by
  induction l generalizing h with
  | nil => rfl
  | cons b l ih => simp [List.foldl_cons, hashUpdate, ih]

/-- C3, amended: whatever the backend, every chunk of an upload is
folded into a running MD5 hash; the backend-specific algorithm choice
(MD5 for the chunk store, SHA-256 for the object store) is made only on
download, from the hash-type tag of the fetched record. -/
theorem upload_download_hash_algos (b : Backend) (chunks : List (List Nat)) :
    (chunks.foldl hashUpdate (hashInit (put_upload_hash_algo b))).algo = HashAlgo.md5
    ∧ get_download_hash_algo (backend_stream_hash_type Backend.mongo) = some HashAlgo.md5
    ∧ get_download_hash_algo (backend_stream_hash_type Backend.minio) = some HashAlgo.sha256 := by
  refine ⟨?_, by decide, by decide⟩
  rw [foldl_hashUpdate_algo]
  rfl

/-- The housekeeping loop of `put_cmd` — delete each listed file whose
id differs from the fresh stream id — equals a filter. -/
theorem foldl_cond_delete_eq_filter (L : List FileRec) (sid : Nat) (b : List FileRec) :
    L.foldl (fun acc f => if f.fid ≠ sid then mongo_delete acc f.fid else acc) b
      = b.filter (fun g => L.all (fun f => f.fid == sid || g.fid != f.fid)) := by
  induction L generalizing b with
  | nil => simp
  | cons f L ih =>
    simp only [List.foldl_cons, List.all_cons]
    by_cases hf : f.fid = sid
    · rw [if_neg (by simp [hf]), ih]
      apply List.filter_congr
      intro g hg
      simp [hf]
    · rw [if_pos hf, ih]
      unfold mongo_delete
      rw [List.filter_filter]
      apply List.filter_congr
      intro g hg
      by_cases hgid : g.fid = f.fid <;> simp [hf, hgid, Bool.and_comm]

/-- C1: after the write stream closes, a hash mismatch makes `put_cmd`
delete exactly the just-written object, report failure and leave the
source untouched; a hash match reports success, leaves the source
untouched, and prunes every other file sharing the uploaded filename,
so that exactly the just-uploaded record carries that name — under the
GridFS guarantee that the fresh `stream._id` identifies exactly the
just-written record. -/
theorem put_verify_spec (bucket : List FileRec) (sid : Nat) (fname : List Char)
    (serverHash : Option String) (localHash : String) (src : List Nat) :
    (serverHash ≠ some localHash →
      put_verify bucket sid fname serverHash localHash src =
        { bucket := mongo_delete bucket sid, transferred := false, source := src })
    ∧ (serverHash = some localHash →
      bucket.filter (fun g => g.fid == sid) = [FileRec.mk sid fname] →
      (put_verify bucket sid fname serverHash localHash src).transferred = true
      ∧ (put_verify bucket sid fname serverHash localHash src).source = src
      ∧ (put_verify bucket sid fname serverHash localHash src).bucket.filter
          (fun g => g.filename == fname) = [FileRec.mk sid fname]) := by
  constructor
  · intro h
    simp [put_verify, h]
  · intro h huniq
    have hne : ¬ (serverHash ≠ some localHash) := by simp [h]
    refine ⟨by simp [put_verify, hne], by simp [put_verify, hne], ?_⟩
    have hput : (put_verify bucket sid fname serverHash localHash src).bucket
        = (mongo_list bucket (some fname)).foldl
            (fun b f => if f.fid ≠ sid then mongo_delete b f.fid else b) bucket := by
      simp [put_verify, hne]
    rw [hput, foldl_cond_delete_eq_filter, List.filter_filter]
    have hstep : bucket.filter
          (fun g => (g.filename == fname)
            && (mongo_list bucket (some fname)).all (fun f => f.fid == sid || g.fid != f.fid))
        = bucket.filter (fun g => (g.filename == fname) && (g.fid == sid)) := by
      apply List.filter_congr
      intro g hg
      by_cases hn : g.filename = fname
      · by_cases hid : g.fid = sid
        · have hall : (mongo_list bucket (some fname)).all
              (fun f => f.fid == sid || g.fid != f.fid) = true := by
            rw [List.all_eq_true]
            intro f hf
            by_cases hfs : f.fid = sid
            · simp [hfs]
            · have hgf : g.fid ≠ f.fid := by omega
              simp [hgf]
          rw [hall, hid, hn]
          simp
        · have hmem : g ∈ mongo_list bucket (some fname) := by
            simp only [mongo_list]
            rw [List.mem_filter]
            exact ⟨hg, by rw [hn]; exact listContainsSub_refl fname⟩
          have hall : (mongo_list bucket (some fname)).all
              (fun f => f.fid == sid || g.fid != f.fid) = false := by
            rw [List.all_eq_false]
            exact ⟨g, hmem, by simp [hid]⟩
          rw [hall]
          have hidb : (g.fid == sid) = false := by simp [hid]
          rw [hidb]
      · have hnb : (g.filename == fname) = false := by simp [hn]
        rw [hnb, Bool.false_and, Bool.false_and]
    rw [hstep, ← List.filter_filter, huniq]
    simp [List.filter_cons]

/-- Witness for C1: a bucket holding the fresh record (id 2, name `a`),
a stale version of `a` (id 1) and an unrelated file `b` (id 3). -/
theorem put_verify_spec_witness :
    put_verify [FileRec.mk 1 ['a'], FileRec.mk 2 ['a'], FileRec.mk 3 ['b']] 2 ['a']
        none "h" [9]
      = { bucket := mongo_delete [FileRec.mk 1 ['a'], FileRec.mk 2 ['a'], FileRec.mk 3 ['b']] 2,
          transferred := false, source := [9] }
    ∧ (put_verify [FileRec.mk 1 ['a'], FileRec.mk 2 ['a'], FileRec.mk 3 ['b']] 2 ['a']
        (some "h") "h" [9]).bucket.filter (fun g => g.filename == ['a'])
      = [FileRec.mk 2 ['a']] :=
  ⟨(put_verify_spec [FileRec.mk 1 ['a'], FileRec.mk 2 ['a'], FileRec.mk 3 ['b']] 2 ['a']
      none "h" [9]).1 (by decide),
   ((put_verify_spec [FileRec.mk 1 ['a'], FileRec.mk 2 ['a'], FileRec.mk 3 ['b']] 2 ['a']
      (some "h") "h" [9]).2 rfl (by decide)).2.2⟩

/-- When the loop bound exceeds the source size, the copy loop never
exits: each `f.read` near or at EOF cannot move `tell` past `fsize`, so
the guard stays true for every amount of fuel. -/
theorem putLoop_none_of_lt (fuel tell fsize chunk tcs : Nat)
    (h1 : tell ≤ fsize) (h2 : fsize < tcs) :
    putLoop fuel tell fsize chunk tcs = none := by
  induction fuel generalizing tell with
  | zero => rfl
  | succ fuel ih =>
    have hlt : tell < tcs := lt_of_le_of_lt h1 h2
    have hle : tell + fileRead fsize tell chunk ≤ fsize := by
      unfold fileRead
      omega
    simp [putLoop, hlt, ih _ hle]

/-- In the terminating regime the copy loop performs exactly `k` full
reads of `chunk` bytes, where `tell + k * chunk` equals the loop
bound. -/
theorem putLoop_eval (k : Nat) : ∀ (fuel tell fsize chunk tcs : Nat),
    0 < chunk → tcs ≤ fsize → tell + k * chunk = tcs → k < fuel →
    putLoop fuel tell fsize chunk tcs = some (List.replicate k chunk, tcs) := by
  induction k with
  | zero =>
    intro fuel tell fsize chunk tcs hc hts htell hk
    match fuel, hk with
    | fuel + 1, _ =>
      have hnlt : ¬ tell < tcs := by omega
      simp [putLoop, hnlt]
      omega
  | succ k ih =>
    intro fuel tell fsize chunk tcs hc hts htell hk
    match fuel, hk with
    | fuel + 1, hk =>
      have hmul : (k + 1) * chunk = k * chunk + chunk := by ring
      have h1 : tell < tcs := by omega
      have hread : fileRead fsize tell chunk = chunk := by
        unfold fileRead
        omega
      simp only [putLoop, if_pos h1, hread]
      rw [ih fuel (tell + chunk) fsize chunk tcs hc hts (by omega) (by omega)]
      simp [List.replicate_succ]

/-- A positive `total_chunked_size` overshoot (only reachable through
the float rounding) makes `putWriteSizes` diverge. -/
theorem putWriteSizes_none (fsize chunk : Nat)
    (h : fsize < total_chunked_size fsize chunk) :
    putWriteSizes fsize chunk = none := by
  unfold putWriteSizes
  rw [putLoop_none_of_lt (fsize + 1) 0 fsize chunk (total_chunked_size fsize chunk)
    (Nat.zero_le _) h]

/-- In the regime where the float division returns the true floor —
which covers every realistic size — `put_cmd` issues exactly
⌊S/C⌋ full chunks of C bytes plus, exactly when S mod C > 0, one final
chunk of S mod C bytes: ⌈S/C⌉ write calls whose byte counts sum to S. -/
theorem putWriteSizes_exact (S C : Nat) (hC : 0 < C) (hdiv : pyIntDiv S C = S / C) :
    putWriteSizes S C =
      some (List.replicate (S / C) C ++ if 0 < S % C then [S % C] else []) := by
  have hcomm : C * (S / C) = (S / C) * C := Nat.mul_comm _ _
  have hmod := Nat.div_add_mod S C
  have htcs : total_chunked_size S C = (S / C) * C := by
    rw [total_chunked_size, hdiv]
  have hloop := putLoop_eval (S / C) (S + 1) 0 S C (total_chunked_size S C) hC
    (by rw [htcs]; omega) (by rw [htcs]; omega) (Nat.lt_succ_of_le (Nat.div_le_self S C))
  simp only [putWriteSizes, hloop]
  have hrl : read_left_size S C = (S % C : ℤ) := by
    rw [read_left_size, htcs]
    omega
  rw [hrl]
  by_cases hm : 0 < S % C
  · have hfr : fileRead S (total_chunked_size S C) (S % C) = S % C := by
      rw [htcs, fileRead]
      omega
    have hpos : (0 : ℤ) < (S : ℤ) % (C : ℤ) := by omega
    have htn : ((S : ℤ) % (C : ℤ)).toNat = S % C := by omega
    rw [if_pos hpos, if_pos hm, htn, hfr]
  · have hnp : ¬ (0 : ℤ) < (S : ℤ) % (C : ℤ) := by omega
    rw [if_neg hnp, if_neg hm]

/-- C2: the chunk arithmetic uses CPython float division
(`int(fsize / chunk_size)`), which rounds 10^17 - 1 up to 10^17: the
computed full-chunk total exceeds the source size, so the copy loop can
never reach its bound (reads at EOF are empty) and `put_cmd` issues an
unbounded stream of empty writes instead of the claimed ⌈S/C⌉ calls
summing to S.  This theorem evaluates the embedded code at that failing
input. -/
theorem put_chunk_split_float_bug :
    total_chunked_size 99999999999999999 1 = 100000000000000000
    ∧ putWriteSizes 99999999999999999 1 = none := by
  have h1 : total_chunked_size 99999999999999999 1 = 100000000000000000 := by decide
  exact ⟨h1, putWriteSizes_none _ _ (by rw [h1]; norm_num)⟩

/-- On the buffered (simple) path, folding the engine chunks through
`write` only grows the `BytesIO` buffer — no backend request, no
recorded part. -/
theorem minioWrite_foldl_buffer (ws : List (List Nat)) (buf : List Nat) (pn : Nat)
    (hu : Bool) (up : List (Nat × Nat)) (ops : List MinioOp) :
    ws.foldl minioWrite (MinioIn.mk (some buf) pn hu up ops) =
      MinioIn.mk (some (buf ++ ws.flatten)) pn hu up ops := by
  induction ws generalizing buf with
  | nil => simp
  | cons b ws ih =>
    rw [List.foldl_cons]
    have hw : minioWrite (MinioIn.mk (some buf) pn hu up ops) b =
        MinioIn.mk (some (buf ++ b)) pn hu up ops := rfl
    rw [hw, ih (buf ++ b)]
    simp [List.append_assoc]

/-- On the multipart path, folding the engine chunks through `write`
issues one PUT per chunk with consecutive part numbers and records one
part per chunk. -/
theorem minioWrite_foldl_multi (ws : List (List Nat)) (pn : Nat) (hpn : pn ≠ 0)
    (up : List (Nat × Nat)) (ops : List MinioOp) :
    ws.foldl minioWrite (MinioIn.mk none pn true up ops) =
      MinioIn.mk none (pn + ws.length) true (up ++ partRecords pn ws)
        (ops ++ partPuts pn ws) := by
  induction ws generalizing pn up ops with
  | nil => simp [partPuts, partRecords]
  | cons b ws ih =>
    rw [List.foldl_cons]
    have hw : minioWrite (MinioIn.mk none pn true up ops) b =
        MinioIn.mk none (pn + 1) true (up ++ [(pn, b.length)])
          (ops ++ [MinioOp.putPart pn b.length]) := by
      simp [minioWrite, minioDoPut, hpn]
    rw [hw, ih (pn + 1) (Nat.succ_ne_zero pn)]
    simp only [MinioIn.mk.injEq, partPuts, partRecords, List.length_cons,
      List.append_assoc, List.singleton_append, true_and, and_true]
    omega

/-- C4, counterexample: at an advertised size exactly equal to the
part-size threshold the adapter takes the buffered single-PUT path — no
multipart session is initiated and no part numbers are assigned —
because the source tests `size > MIN_PART_SIZE` strictly. -/
theorem minio_threshold_boundary :
    (minioRun 8 8 [[1, 2, 3], [4, 5]] true).1.ops = [MinioOp.putSimple 5]
    ∧ MinioOp.newMultipart ∉ (minioRun 8 8 [[1, 2, 3], [4, 5]] true).1.ops := by
  refine ⟨rfl, by decide⟩

/-- C4, amended (boundary moved to the strict comparison the code
performs): at or below the threshold the stream buffers every written
byte and issues exactly one PUT on close; strictly above it, a
multipart session is opened, each write issues one PUT and records one
part with ascending part numbers starting at 1, close completes the
upload referencing every recorded part, and a failed completion aborts
the multipart session (and re-raises). -/
theorem minio_stream_strategy (T size : Nat) (ws : List (List Nat)) (ok : Bool) :
    (size ≤ T →
      (ws.foldl minioWrite (minioInInit T size)).minStream = some ws.flatten
      ∧ (minioRun T size ws ok).1.ops = [MinioOp.putSimple ws.flatten.length]
      ∧ (minioRun T size ws ok).2 = false)
    ∧ (T < size →
      (minioRun T size ws true).1.ops =
        MinioOp.newMultipart :: (partPuts 1 ws
          ++ [MinioOp.completeMultipart (partRecords 1 ws)])
      ∧ (minioRun T size ws false).1.ops =
          MinioOp.newMultipart :: (partPuts 1 ws ++ [MinioOp.removeIncomplete])
      ∧ (minioRun T size ws false).2 = true) := by
  constructor
  · intro h
    have hinit : minioInInit T size = MinioIn.mk (some []) 0 false [] [] := by
      simp [minioInInit, Nat.not_lt.mpr h]
    have hfold := minioWrite_foldl_buffer ws [] 0 false [] []
    simp only [List.nil_append] at hfold
    refine ⟨?_, ?_, ?_⟩ <;>
      · simp only [minioRun, hinit, hfold, minioClose, minioDoPut]
        try rfl
  · intro h
    have hinit : minioInInit T size =
        MinioIn.mk none 1 true [] [MinioOp.newMultipart] := by
      simp [minioInInit, h]
    have hfold := minioWrite_foldl_multi ws 1 Nat.one_ne_zero [] [MinioOp.newMultipart]
    simp only [List.nil_append] at hfold
    refine ⟨?_, ?_, ?_⟩ <;>
      simp only [minioRun, hinit, hfold, minioClose] <;> rfl

/-- Witness for C4 at threshold 8: a 3-byte upload buffers and issues
one PUT; a 9-byte advertised upload multiparts with parts 1 and 2. -/
theorem minio_stream_strategy_witness :
    (minioRun 8 3 [[1], [2, 3]] true).1.ops = [MinioOp.putSimple 3]
    ∧ (minioRun 8 9 [[1], [2, 3]] true).1.ops =
        MinioOp.newMultipart :: (partPuts 1 [[1], [2, 3]]
          ++ [MinioOp.completeMultipart (partRecords 1 [[1], [2, 3]])]) :=
  ⟨((minio_stream_strategy 8 3 [[1], [2, 3]] true).1 (by norm_num)).2.1,
   ((minio_stream_strategy 8 9 [[1], [2, 3]] true).2 (by norm_num)).1⟩

theorem splitLastDot_of_not_mem (s : List Char) (hs : '.' ∉ s) :
    splitLastDot s = none := by
  induction s with
  | nil => rfl
  | cons c cs ih =>
    simp only [List.mem_cons, not_or] at hs
    simp only [splitLastDot]
    rw [ih hs.2, if_neg (fun e => hs.1 e.symm)]

theorem splitLastDot_append (n s : List Char) (hs : '.' ∉ s) :
    splitLastDot (n ++ '.' :: s) = some (n, s) := by
  induction n with
  | nil =>
    simp only [List.nil_append, splitLastDot]
    rw [splitLastDot_of_not_mem s hs]
    simp
  | cons c n ih =>
    simp only [List.cons_append, splitLastDot, List.append_eq]
    rw [ih]

theorem rawBucketName_chunksColl (n : List Char) : rawBucketName (chunksColl n) = n := by
  unfold rawBucketName chunksColl
  rw [splitLastDot_append n chunksChars (by decide)]

theorem rawBucketName_filesColl (n : List Char) : rawBucketName (filesColl n) = n := by
  unfold rawBucketName filesColl
  rw [splitLastDot_append n filesChars (by decide)]

theorem rawRecordType_chunksColl (n : List Char) :
    rawRecordType (chunksColl n) = some GridFSTable.chunks := by
  unfold rawRecordType chunksColl
  rw [splitLastDot_append n chunksChars (by decide)]
  simp

theorem rawRecordType_filesColl (n : List Char) :
    rawRecordType (filesColl n) = some GridFSTable.files := by
  unfold rawRecordType filesColl
  rw [splitLastDot_append n filesChars (by decide)]
  simp [chunksChars, filesChars]

theorem chunksColl_inj (n m : List Char) (h : chunksColl n = chunksColl m) : n = m := by
  have h1 := rawBucketName_chunksColl n
  rw [h, rawBucketName_chunksColl] at h1
  exact h1.symm

theorem filesColl_inj (n m : List Char) (h : filesColl n = filesColl m) : n = m := by
  have h1 := rawBucketName_filesColl n
  rw [h, rawBucketName_filesColl] at h1
  exact h1.symm

theorem chunksColl_ne_filesColl (n m : List Char) : chunksColl n ≠ filesColl m := by
  intro h
  have h1 := rawRecordType_chunksColl n
  rw [h, rawRecordType_filesColl] at h1
  exact GridFSTable.noConfusion (Option.some.inj h1)

theorem cSeen_append (name : List Char) (P : List MongoCollection) (c : MongoCollection) :
    cSeen name (P ++ [c]) ↔ cSeen name P ∨ chunksColl name = c.raw := by
  simp [cSeen]

theorem fSeen_append (name : List Char) (P : List MongoCollection) (c : MongoCollection) :
    fSeen name (P ++ [c]) ↔ fSeen name P ∨ filesColl name = c.raw := by
  simp [fSeen]

theorem yields_append_name (ys : List BucketAccum) (r2 : BucketAccum) (m : List Char) :
    (∃ r ∈ ys ++ [r2], r.name = m) ↔ (∃ r ∈ ys, r.name = m) ∨ r2.name = m := by
  simp only [List.mem_append, List.mem_singleton]
  constructor
  · rintro ⟨r, hr | rfl, hname2⟩
    · exact Or.inl ⟨r, hr, hname2⟩
    · exact Or.inr hname2
  · rintro (⟨r, hr, hname2⟩ | h)
    · exact ⟨r, Or.inl hr, hname2⟩
    · exact ⟨r2, Or.inr rfl, h⟩

/-- The `bucket_list` loop body preserves the invariant when fed a
fresh (not yet enumerated) GridFS collection. -/
theorem blStep_inv (P : List MongoCollection) (st : BLState) (c : MongoCollection)
    (hinv : BLInv P st)
    (hgc : ∃ n, c.raw = chunksColl n ∨ c.raw = filesColl n)
    (hnew : c.raw ∉ P.map (fun x => x.raw)) :
    BLInv (P ++ [c]) (blStep st c) := by
  obtain ⟨hcr, hdn, hds, hdp, hy⟩ := hinv
  obtain ⟨n, hn | hn⟩ := hgc
  · -- c is the chunk collection of bucket n
    have hname : rawBucketName c.raw = n := by rw [hn, rawBucketName_chunksColl]
    have htype : rawRecordType c.raw = some GridFSTable.chunks := by
      rw [hn, rawRecordType_chunksColl]
    have hncseen : ¬ cSeen n P := fun hc => hnew (by rw [hn]; exact hc)
    have hcs : ∀ m, cSeen m (P ++ [c]) ↔ cSeen m P ∨ m = n := by
      intro m
      rw [cSeen_append]
      constructor
      · rintro (h | h)
        · exact Or.inl h
        · exact Or.inr (chunksColl_inj m n (by rw [h, hn]))
      · rintro (h | rfl)
        · exact Or.inl h
        · exact Or.inr hn.symm
    have hfs : ∀ m, fSeen m (P ++ [c]) ↔ fSeen m P := by
      intro m
      rw [fSeen_append]
      constructor
      · rintro (h | h)
        · exact h
        · rw [hn] at h
          exact absurd h.symm (chunksColl_ne_filesColl n m)
      · exact Or.inl
    rcases hentry : st.done n with _ | (_ | ⟨td, rec⟩)
    · -- the first collection of the pair arrives
      have hboth := (hdn n).mp hentry
      have hstep : blStep st c = { st with done := fun m => if m = n then some (some (1, { blApplyChunks c (freshAccum n) with raw := (blApplyChunks c (freshAccum n)).raw ++ [c.raw] })) else st.done m } := by
        simp [blStep, hcr, hname, hentry, htype]
      rw [hstep]
      refine ⟨hcr, ?_, ?_, ?_, ?_⟩
      · intro m
        by_cases hm : m = n
        · subst hm
          simp only [if_pos rfl]
          rw [hcs, hfs]
          simp
        · simp only [if_neg hm]
          rw [hcs, hfs, hdn m]
          simp [hm]
      · intro m
        by_cases hm : m = n
        · subst hm
          simp only [if_pos rfl]
          rw [hcs, hfs]
          simp [hboth.2]
        · simp only [if_neg hm]
          rw [hcs, hfs, hds m]
          simp [hm]
      · intro m td0 rec0 h
        dsimp only at h
        by_cases hm : m = n
        · subst hm
          rw [if_pos rfl] at h
          simp only [Option.some.injEq, Prod.mk.injEq] at h
          refine ⟨h.1.symm, ?_⟩
          rw [← h.2]
          simp [blApplyChunks, freshAccum]
        · rw [if_neg hm] at h
          exact hdp m td0 rec0 h
      · intro m
        rw [hcs, hfs, hy m]
        by_cases hm : m = n
        · subst hm
          simp [hboth.2]
        · simp [hm]
    · -- third same-prefix collection after the pair: contradicts freshness
      exact absurd ((hds n).mp hentry).1 hncseen
    · -- the second collection of the pair arrives: the record is yielded
      obtain ⟨htd, hrname⟩ := hdp n td rec hentry
      subst htd
      have hfseen : fSeen n P := by
        by_contra hnf
        have h0 : st.done n = none := (hdn n).mpr ⟨hncseen, hnf⟩
        rw [hentry] at h0
        exact Option.noConfusion h0
      have hstep : blStep st c = { st with done := fun m => if m = n then some none else st.done m, yields := st.yields ++ [{ blApplyChunks c rec with raw := (blApplyChunks c rec).raw ++ [c.raw] }] } := by
        simp [blStep, hcr, hname, hentry, htype]
      rw [hstep]
      have hr2name : (blApplyChunks c rec).name = n := by
        simp [blApplyChunks, hrname]
      refine ⟨hcr, ?_, ?_, ?_, ?_⟩
      · intro m
        by_cases hm : m = n
        · subst hm
          simp only [if_pos rfl]
          rw [hcs, hfs]
          simp
        · simp only [if_neg hm]
          rw [hcs, hfs, hdn m]
          simp [hm]
      · intro m
        by_cases hm : m = n
        · subst hm
          simp only [if_pos rfl]
          rw [hcs, hfs]
          simp [hfseen]
        · simp only [if_neg hm]
          rw [hcs, hfs, hds m]
          simp [hm]
      · intro m td0 rec0 h
        dsimp only at h
        by_cases hm : m = n
        · subst hm
          rw [if_pos rfl] at h
          exact absurd h (by simp)
        · rw [if_neg hm] at h
          exact hdp m td0 rec0 h
      · intro m
        rw [hcs, hfs, yields_append_name, hy m]
        by_cases hm : m = n
        · subst hm
          simp [hr2name, hfseen]
        · have hm2 : ¬ n = m := fun e => hm e.symm
          simp [hr2name, hm, hm2]
  · -- c is the files collection of bucket n
    have hname : rawBucketName c.raw = n := by rw [hn, rawBucketName_filesColl]
    have htype : rawRecordType c.raw = some GridFSTable.files := by
      rw [hn, rawRecordType_filesColl]
    have hnfseen : ¬ fSeen n P := fun hf => hnew (by rw [hn]; exact hf)
    have hfs : ∀ m, fSeen m (P ++ [c]) ↔ fSeen m P ∨ m = n := by
      intro m
      rw [fSeen_append]
      constructor
      · rintro (h | h)
        · exact Or.inl h
        · exact Or.inr (filesColl_inj m n (by rw [h, hn]))
      · rintro (h | rfl)
        · exact Or.inl h
        · exact Or.inr hn.symm
    have hcs : ∀ m, cSeen m (P ++ [c]) ↔ cSeen m P := by
      intro m
      rw [cSeen_append]
      constructor
      · rintro (h | h)
        · exact h
        · rw [hn] at h
          exact absurd h (chunksColl_ne_filesColl m n)
      · exact Or.inl
    rcases hentry : st.done n with _ | (_ | ⟨td, rec⟩)
    · have hboth := (hdn n).mp hentry
      have hstep : blStep st c = { st with done := fun m => if m = n then some (some (1, { blApplyFiles c (freshAccum n) with raw := (blApplyFiles c (freshAccum n)).raw ++ [c.raw] })) else st.done m } := by
        simp [blStep, hcr, hname, hentry, htype]
      rw [hstep]
      refine ⟨hcr, ?_, ?_, ?_, ?_⟩
      · intro m
        by_cases hm : m = n
        · subst hm
          simp only [if_pos rfl]
          rw [hcs, hfs]
          simp
        · simp only [if_neg hm]
          rw [hcs, hfs, hdn m]
          simp [hm]
      · intro m
        by_cases hm : m = n
        · subst hm
          simp only [if_pos rfl]
          rw [hcs, hfs]
          simp [hboth.1]
        · simp only [if_neg hm]
          rw [hcs, hfs, hds m]
          simp [hm]
      · intro m td0 rec0 h
        dsimp only at h
        by_cases hm : m = n
        · subst hm
          rw [if_pos rfl] at h
          simp only [Option.some.injEq, Prod.mk.injEq] at h
          refine ⟨h.1.symm, ?_⟩
          rw [← h.2]
          simp [blApplyFiles, freshAccum]
        · rw [if_neg hm] at h
          exact hdp m td0 rec0 h
      · intro m
        rw [hcs, hfs, hy m]
        by_cases hm : m = n
        · subst hm
          simp [hboth.1]
        · simp [hm]
    · exact absurd ((hds n).mp hentry).2 hnfseen
    · obtain ⟨htd, hrname⟩ := hdp n td rec hentry
      subst htd
      have hcseen : cSeen n P := by
        by_contra hnc
        have h0 : st.done n = none := (hdn n).mpr ⟨hnc, hnfseen⟩
        rw [hentry] at h0
        exact Option.noConfusion h0
      have hstep : blStep st c = { st with done := fun m => if m = n then some none else st.done m, yields := st.yields ++ [{ blApplyFiles c rec with raw := (blApplyFiles c rec).raw ++ [c.raw] }] } := by
        simp [blStep, hcr, hname, hentry, htype]
      rw [hstep]
      have hr2name : (blApplyFiles c rec).name = n := by
        simp [blApplyFiles, hrname]
      refine ⟨hcr, ?_, ?_, ?_, ?_⟩
      · intro m
        by_cases hm : m = n
        · subst hm
          simp only [if_pos rfl]
          rw [hcs, hfs]
          simp
        · simp only [if_neg hm]
          rw [hcs, hfs, hdn m]
          simp [hm]
      · intro m
        by_cases hm : m = n
        · subst hm
          simp only [if_pos rfl]
          rw [hcs, hfs]
          simp [hcseen]
        · simp only [if_neg hm]
          rw [hcs, hfs, hds m]
          simp [hm]
      · intro m td0 rec0 h
        dsimp only at h
        by_cases hm : m = n
        · subst hm
          rw [if_pos rfl] at h
          exact absurd h (by simp)
        · rw [if_neg hm] at h
          exact hdp m td0 rec0 h
      · intro m
        rw [hcs, hfs, yields_append_name, hy m]
        by_cases hm : m = n
        · subst hm
          simp [hr2name, hcseen]
        · have hm2 : ¬ n = m := fun e => hm e.symm
          simp [hr2name, hm, hm2]

/-- The invariant holds after a full `bucket_list` run over pairwise
distinct, GridFS-named collections. -/
theorem blRun_inv (cols : List MongoCollection)
    (hnd : (cols.map (fun c => c.raw)).Nodup)
    (hg : ∀ c ∈ cols, ∃ n, c.raw = chunksColl n ∨ c.raw = filesColl n) :
    BLInv cols (blRun cols) := by
  induction cols using List.reverseRecOn with
  | nil =>
    refine ⟨rfl, ?_, ?_, ?_, ?_⟩
    · intro name
      simp [cSeen, fSeen, blRun]
    · intro name
      simp [cSeen, fSeen, blRun]
    · intro name td rec h
      exact Option.noConfusion h
    · intro name
      simp [cSeen, fSeen, blRun]
  | append_singleton P c ih =>
    have hrun : blRun (P ++ [c]) = blStep (blRun P) c := by
      simp [blRun, List.foldl_append]
    have hmap : ((P ++ [c]).map (fun c => c.raw)).Nodup := hnd
    rw [List.map_append] at hmap
    obtain ⟨hP, _, hdisj⟩ := List.nodup_append.mp hmap
    have hnotmem : c.raw ∉ P.map (fun x => x.raw) := by
      intro hmem
      exact hdisj hmem (by simp)
    have hgP : ∀ x ∈ P, ∃ n, x.raw = chunksColl n ∨ x.raw = filesColl n :=
      fun x hx => hg x (List.mem_append_left _ hx)
    rw [hrun]
    exact blStep_inv P (blRun P) c (ih hP hgP) (hg c (List.mem_append_right _ (by simp)))
      hnotmem

/-- C5: over every enumeration order of pairwise-distinct GridFS
collections, at every point `k` of the enumeration, `bucket_list` has
yielded a record for a bucket name exactly when both the chunk
collection and the files collection of that bucket have been observed —
in particular never before both — and the generator never crashes. -/
theorem bucket_list_yields_iff (cols : List MongoCollection)
    (hnd : (cols.map (fun c => c.raw)).Nodup)
    (hg : ∀ c ∈ cols, ∃ n, c.raw = chunksColl n ∨ c.raw = filesColl n)
    (name : List Char) (k : Nat) :
    (blRun (cols.take k)).crashed = false
    ∧ ((∃ rec ∈ (blRun (cols.take k)).yields, rec.name = name) ↔
        chunksColl name ∈ (cols.take k).map (fun c => c.raw)
        ∧ filesColl name ∈ (cols.take k).map (fun c => c.raw)) := by
  have hsub : (cols.take k).Sublist cols := List.take_sublist k cols
  have hnd2 : ((cols.take k).map (fun c => c.raw)).Nodup :=
    List.Nodup.sublist (List.Sublist.map _ hsub) hnd
  have hg2 : ∀ c ∈ cols.take k, ∃ n, c.raw = chunksColl n ∨ c.raw = filesColl n :=
    fun c hc => hg c (hsub.subset hc)
  obtain ⟨hcr, _, _, _, hy⟩ := blRun_inv (cols.take k) hnd2 hg2
  exact ⟨hcr, hy name⟩

/-- Witness for C5: a two-collection store (the pair of bucket `a`);
after both collections are enumerated the record for `a` has been
yielded, and the crash flag is clear. -/
theorem bucket_list_yields_iff_witness :
    (blRun (([MongoCollection.mk (chunksColl ['a']) 7 0 none,
        MongoCollection.mk (filesColl ['a']) 0 2 none]).take 2)).crashed = false
    ∧ ((∃ rec ∈ (blRun (([MongoCollection.mk (chunksColl ['a']) 7 0 none,
          MongoCollection.mk (filesColl ['a']) 0 2 none]).take 2)).yields, rec.name = ['a']) ↔
        chunksColl ['a'] ∈ (([MongoCollection.mk (chunksColl ['a']) 7 0 none,
          MongoCollection.mk (filesColl ['a']) 0 2 none]).take 2).map (fun c => c.raw)
        ∧ filesColl ['a'] ∈ (([MongoCollection.mk (chunksColl ['a']) 7 0 none,
          MongoCollection.mk (filesColl ['a']) 0 2 none]).take 2).map (fun c => c.raw)) :=
  bucket_list_yields_iff
    [MongoCollection.mk (chunksColl ['a']) 7 0 none,
     MongoCollection.mk (filesColl ['a']) 0 2 none]
    (by decide)
    (by
      intro c hc
      simp only [List.mem_cons, List.mem_singleton] at hc
      rcases hc with rfl | rfl | hc
      · exact ⟨['a'], Or.inl rfl⟩
      · exact ⟨['a'], Or.inr rfl⟩
      · exact absurd hc (List.not_mem_nil c))
    ['a'] 2
